import Mathlib

/-!
# Verification of the phantom-zone FHE core

Shallow embedding, in Lean 4, of the arithmetic core of the `phantom-zone`
multi-party FHE library: the programmable-bootstrap (PBS) pipeline of
`src/pbs.rs` (mod switches, monomial multiplication of the test polynomial,
the LMKC+ blind-rotation schedule, sample extraction), the automorphism-map
generator of `src/rgsw/keygen.rs`, the multi-party decryption protocol of
`src/multi_party.rs`, and the `FheUint8` bit-level encryption/decryption
layer of `src/shortint/mod.rs`.

Machine integers are modelled as `Nat`/`Int`; arithmetic modulo a ciphertext
modulus `Q` is modelled as `ZMod Q` (the Rust code is generic over a
`Modulus`/`ArithmeticOps` backend whose operations are exactly the mod-`Q`
ring operations: `add`, `mul`, `neg`). Rust `f64` expressions of the form
`((v * a) / b).floor()` and `((v * a) / b).round()` are modelled by exact
rational arithmetic. Functions that `assert!` return `Option`, with `none`
standing for the panic. In-place writes into caller buffers are modelled by
`List.set` folds over an explicit initial buffer.
-/

namespace PhantomZone

/-! ## Definitions transcribed from the source -/

/-! ### `mod_switch_odd` (src/pbs.rs)

```rust
fn mod_switch_odd(v: f64, from_q: f64, to_q: f64) -> usize {
    let odd_v = (((v * to_q) / (from_q)).floor()).to_usize().unwrap();
    odd_v + ((odd_v & 1) ^ 1)
}
```
`v` is a nonnegative integer coordinate, so the floored quotient is `Nat`
division. -/

def mod_switch_odd (v from_q to_q : Nat) : Nat :=
  let odd_v := v * to_q / from_q
  odd_v + ((odd_v &&& 1) ^^^ 1)

/-! ### PBS step 1: mod switch `Q -> Q_ks` (src/pbs.rs, `pbs`)

```rust
lwe_in.as_mut().iter_mut().for_each(|v| {
    *v = M::MatElement::from_f64(
        ((v.to_f64().unwrap() * lwe_qf64) / rlwe_qf64).round()).unwrap()
});
```
Rust `f64::round` rounds half away from zero; coordinates are nonnegative, so
this is Mathlib's `round` (round half up) on the exact rational quotient. -/

def mod_switch_round (v lwe_q rlwe_q : Nat) : ℤ :=
  round ((v * lwe_q : ℚ) / (rlwe_q : ℚ))

def pbs_mod_switch (lwe_q rlwe_q : Nat) (lwe_in : List Nat) : List ℤ :=
  lwe_in.map (fun v => mod_switch_round v lwe_q rlwe_q)

/-! ### `monomial_mul` (src/pbs.rs)

```rust
p_in.as_ref().iter().enumerate().for_each(|(index, v)| {
    let mut to_index = index + mon_exp;
    let mut to_sign = mon_sign;
    if to_index >= ring_size {
        to_index = to_index - ring_size;
        to_sign = !to_sign;
    }
    if !to_sign { p_out.as_mut()[to_index] = mod_op.neg(v); }
    else        { p_out.as_mut()[to_index] = *v; }
});
```
The loop scatters into the caller's `p_out` buffer; we model it as a
`List.set` fold over an explicit initial buffer `p_out`. -/

def monomial_mul_step (Q : ℕ) (p_in : List (ZMod Q)) (mon_exp : ℕ) (mon_sign : Bool)
    (ring_size : ℕ) (p_out : List (ZMod Q)) (index : ℕ) : List (ZMod Q) :=
  let to_index := index + mon_exp
  let wrapped := ring_size ≤ to_index
  let to_index := if wrapped then to_index - ring_size else to_index
  let to_sign := if wrapped then !mon_sign else mon_sign
  if to_sign then p_out.set to_index (p_in.getD index 0)
  else p_out.set to_index (-(p_in.getD index 0))

def monomial_mul (Q : ℕ) (p_in : List (ZMod Q)) (mon_exp : ℕ) (mon_sign : Bool)
    (ring_size : ℕ) (p_out : List (ZMod Q)) : List (ZMod Q) :=
  (List.range ring_size).foldl (monomial_mul_step Q p_in mon_exp mon_sign ring_size) p_out

/-! ### PBS step 4: trivial test-polynomial construction (src/pbs.rs, `pbs`)

```rust
let g_times_b = (g * mod_switch_odd(b, ..)) % (br_q);
let br_qby2 = br_q >> 1;
let mut gb_monomial_sign = true;
let mut gb_monomial_exp = g_times_b;
if gb_monomial_exp > br_qby2 { gb_monomial_exp -= br_qby2; gb_monomial_sign = false }
let mut trivial_rlwe_test_poly = M::zeros(2, rlwe_n);
if pbs_info.embedding_factor() == 1 {
    monomial_mul(test_vec, row 1 of trivial_rlwe_test_poly, ..);
} else {
    monomial_mul(test_vec, scratch[..br_qby2], ..);
    scratch[..br_qby2].iter().enumerate().for_each(|(index, v)| {
        partb_trivial_rlwe[embed_factor * index] = *v; });
}
```
`b_mod` below is the already odd-mod-switched body `mod_switch_odd(b, ..)`.
The part-b row starts as the zero row of `M::zeros(2, rlwe_n)`. -/

def pbs_test_vec_row (Q : ℕ) (test_vec : List (ZMod Q)) (g b_mod br_q rlwe_n
    embedding_factor : ℕ) : List (ZMod Q) :=
  let g_times_b := (g * b_mod) % br_q
  let br_qby2 := br_q >>> 1
  let gb_monomial_exp := if br_qby2 < g_times_b then g_times_b - br_qby2 else g_times_b
  let gb_monomial_sign := if br_qby2 < g_times_b then false else true
  if embedding_factor = 1 then
    monomial_mul Q test_vec gb_monomial_exp gb_monomial_sign br_qby2
      (List.replicate rlwe_n 0)
  else
    let t := monomial_mul Q test_vec gb_monomial_exp gb_monomial_sign br_qby2
      (List.replicate br_qby2 0)
    (List.range br_qby2).foldl
      (fun partb index => partb.set (embedding_factor * index) (t.getD index 0))
      (List.replicate rlwe_n 0)

/-- Specification-side definition (for the refinement statement of the
test-polynomial construction): the `j`-th coefficient of `t(X) * X^e` in the
negacyclic ring `Z[X]/(X^m + 1)`, for an exponent `0 ≤ e < 2*m` and `j < m`.
`X^m = -1`, so writing `j + 2*m - e = c*m + r` with `r < m`, the coefficient
is `(-1)^c * t_r`. -/
def negacyclic_monomial_mul_coeff (Q : ℕ) (m e : ℕ) (t : List (ZMod Q)) (j : ℕ) :
    ZMod Q :=
  let x := j + 2 * m - e
  if (x / m) % 2 = 0 then t.getD (x % m) 0 else -(t.getD (x % m) 0)

/-- Analysis-side helper: the source index of `monomial_mul`'s scatter, i.e.
the unique `i` with `to_index(i) = j` (valid for `mon_exp ≤ ring_size` and
`j < ring_size`). -/
def monomial_src (mon_exp ring_size j : ℕ) : ℕ :=
  if mon_exp ≤ j then j - mon_exp else j + ring_size - mon_exp

/-- Analysis-side helper: the value `monomial_mul` writes for source index
`i`: the input coefficient, negated iff the write wraps past the degree
(`ring_size ≤ i + mon_exp`) xor the global sign is negative. -/
def monomial_val (Q : ℕ) (p_in : List (ZMod Q)) (mon_exp : ℕ) (mon_sign : Bool)
    (ring_size i : ℕ) : ZMod Q :=
  if i + mon_exp < ring_size then
    (if mon_sign then p_in.getD i 0 else -(p_in.getD i 0))
  else
    (if mon_sign then -(p_in.getD i 0) else p_in.getD i 0)

/-! ### LMKC+ blind rotation (src/pbs.rs, `blind_rotation`)

The schedule is modelled as the trace of homomorphic operations applied to the
accumulator: `extProd s_index` for each call
`rlwe_by_rgsw_shoup(rlwe, rgsw_ct_lwe_si(s_index), ..)`, and `auto v` for each
call `rlwe_auto_shoup(rlwe, galois_key_for_auto(v), ..)` (automorphism by
`g^v`, `v = 0` standing for `-g`). -/

inductive BREvent where
  | extProd (sIndex : ℕ)
  | auto (shift : ℕ)
  deriving DecidableEq, Repr

/-- One half of the blind-rotation loop:

```rust
let mut v = 0;
for i in (1..q_by_4).rev() {
    let s_indices = &gk_to_si[off + i];
    s_indices.iter().for_each(|s_index| { rlwe_by_rgsw_shoup(.. s_index ..); });
    v += 1;
    if gk_to_si[off + i - 1].len() != 0 || v == w || i == 1 {
        rlwe_auto_shoup(.. galois_key_for_auto(v) ..);
        v = 0;
    }
}
```
with `off = q_by_4` for the negative half and `off = 0` for the positive half.
The first argument of the recursion is the loop variable `i` (counting down);
the second is the window counter `v`. -/
def br_half (gk_to_si : List (List ℕ)) (w off : ℕ) : ℕ → ℕ → List BREvent
  | 0, _ => []
  | i + 1, v =>
    let evs := (gk_to_si.getD (off + (i + 1)) []).map BREvent.extProd
    let v' := v + 1
    if gk_to_si.getD (off + i) [] ≠ [] ∨ v' = w ∨ i + 1 = 1 then
      evs ++ [BREvent.auto v'] ++ br_half gk_to_si w off i 0
    else
      evs ++ br_half gk_to_si w off i v'

/-- The full `blind_rotation` trace: the negative half (`-(g^k)`, buckets
`q/4 + k` for `k = q/4-1 .. 1`), the `-(g^0)` bucket followed by the
unconditional `k = 0` automorphism, the positive half (`+(g^k)`, buckets `k`
for `k = q/4-1 .. 1`), and finally the `+(g^0)` bucket. -/
def blind_rotation_trace (w q : ℕ) (gk_to_si : List (List ℕ)) : List BREvent :=
  let q_by_4 := q >>> 2
  br_half gk_to_si w q_by_4 (q_by_4 - 1) 0
    ++ (gk_to_si.getD q_by_4 []).map BREvent.extProd
    ++ [BREvent.auto 0]
    ++ br_half gk_to_si w 0 (q_by_4 - 1) 0
    ++ (gk_to_si.getD 0 []).map BREvent.extProd

/-- Specification-side definition of one half of the schedule, transcribing
the spec sentence: "iterate k from q/4−1 down to 1 ...; for each k, apply an
RLWE×RGSW external product for every s-index in the bucket; whenever the next
bucket is non-empty, or the window counter reaches w, or k==1, apply an RLWE
automorphism for the accumulated shift and reset the counter". The fold state
is the pair (trace so far, window counter). -/
def spec_half (w : ℕ) (bucket : ℕ → List ℕ) (ks : List ℕ) : List BREvent × ℕ :=
  ks.foldl
    (fun st k =>
      let tr := st.1 ++ (bucket k).map BREvent.extProd
      let v := st.2 + 1
      if bucket (k - 1) ≠ [] ∨ v = w ∨ k = 1 then (tr ++ [BREvent.auto v], 0)
      else (tr, v))
    ([], 0)

/-- Specification-side definition of the whole schedule: negative half over
buckets `q/4 + k`, the negative `k = 0` bucket and its automorphism, positive
half over buckets `k`, the positive `k = 0` bucket. -/
def spec_blind_rotation_trace (w q : ℕ) (bucket : ℕ → List ℕ) : List BREvent :=
  let ks := (List.range' 1 (q / 4 - 1)).reverse
  (spec_half w (fun k => bucket (q / 4 + k)) ks).1
    ++ (bucket (q / 4)).map BREvent.extProd
    ++ [BREvent.auto 0]
    ++ (spec_half w bucket ks).1
    ++ (bucket 0).map BREvent.extProd

/-! ### `sample_extract` (src/pbs.rs)

```rust
let ring_size = rlwe_in.dimension().1;
assert!(ring_size + 1 == lwe_out.as_ref().len());
let to = &mut lwe_out.as_mut()[1..];
let from = rlwe_in.get_row_slice(0);
for i in 0..index + 1 { to[i] = from[index - i]; }
for i in index + 1..ring_size { to[i] = mod_op.neg(&from[ring_size + index - i]); }
lwe_out.as_mut()[0] = *rlwe_in.get(1, index);
```
`rlwe_a` is row 0 (the part-a polynomial), `rlwe_b` row 1 (part b);
`lwe_out` is the caller's buffer, modelled by its initial contents. -/

def sample_extract (Q : ℕ) (lwe_out : List (ZMod Q)) (rlwe_a rlwe_b : List (ZMod Q))
    (index : ℕ) : Option (List (ZMod Q)) :=
  let ring_size := rlwe_a.length
  if ring_size + 1 = lwe_out.length then
    let step1 := (List.range' 0 (index + 1)).foldl
      (fun acc i => acc.set (1 + i) (rlwe_a.getD (index - i) 0)) lwe_out
    let step2 := (List.range' (index + 1) (ring_size - (index + 1))).foldl
      (fun acc i => acc.set (1 + i) (-(rlwe_a.getD (ring_size + index - i) 0))) step1
    some (step2.set 0 (rlwe_b.getD index 0))
  else none

/-! ### `generate_auto_map` (src/rgsw/keygen.rs)

```rust
pub(crate) fn generate_auto_map(ring_size: usize, k: isize) -> (Vec<usize>, Vec<bool>) {
    assert!(k & 1 == 1, "Auto {k} must be odd");
    let k = if k < 0 { (2 * ring_size) - (k.abs() as usize % (2 * ring_size)) }
            else { k as usize };
    (0..ring_size).map(|i| {
        let mut to_index = (i * k) % (2 * ring_size);
        let mut sign = true;
        if to_index >= ring_size { to_index = to_index - ring_size; sign = false; }
        (to_index, sign)
    }).unzip()
}
```
`k & 1 == 1` on a two's-complement `isize` holds exactly when `k` is odd,
i.e. `k.emod 2 = 1`. -/

/-- The reduction of a (verified odd) `k` into `[0, 2*ring_size)`-ish range:
`let k = if k < 0 { (2 * ring_size) - (k.abs() as usize % (2 * ring_size)) }
else { k as usize };`. -/
def reduce_auto_k (ring_size : ℕ) (k : ℤ) : ℕ :=
  if k < 0 then 2 * ring_size - ((-k).toNat % (2 * ring_size)) else k.toNat

/-- The loop body of `generate_auto_map`: the pair `(to_index, sign)` for
index `i`. -/
def auto_map_entry (ring_size kred i : ℕ) : ℕ × Bool :=
  let to_index := (i * kred) % (2 * ring_size)
  if ring_size ≤ to_index then (to_index - ring_size, false)
  else (to_index, true)

def generate_auto_map (ring_size : ℕ) (k : ℤ) : Option (List ℕ × List Bool) :=
  if k % 2 = 1 then
    some (((List.range ring_size).map
      (auto_map_entry ring_size (reduce_auto_k ring_size k))).unzip)
  else none

/-- Specification-side notion for the automorphism map: the exponent
`(i*k) mod 2N` (Euclidean remainder, in `[0, 2N)`). -/
def auto_map_exponent (ring_size : ℕ) (k : ℤ) (i : ℕ) : ℤ :=
  ((i : ℤ) * k) % (2 * (ring_size : ℤ))

/-! ### Multi-party decryption (src/multi_party.rs)

```rust
pub(crate) fn multi_party_decryption_share(lwe_ct, s, mod_op, rng) -> R::Element {
    assert!(lwe_ct.as_ref().len() == s.len() + 1);
    let mut neg_s = R::try_convert_from(s, mod_op.modulus());
    mod_op.elwise_neg_mut(neg_s.as_mut());
    let mut share = R::Element::zero();
    izip!(neg_s.iter(), lwe_ct.iter().skip(1)).for_each(|(si, ai)| {
        share = mod_op.add(&share, &mod_op.mul(si, ai)); });
    let e = rng.random(mod_op.modulus());
    share = mod_op.add(&share, &e);
    share
}
```
The fresh Gaussian noise sample is the explicit parameter `e`; the ternary
secret is given already converted into `ZMod Q`. -/

def multi_party_decryption_share (Q : ℕ) (lwe_ct s : List (ZMod Q)) (e : ZMod Q) :
    Option (ZMod Q) :=
  if lwe_ct.length = s.length + 1 then
    some ((((s.map (fun x => -x)).zip (lwe_ct.drop 1)).foldl
      (fun share p => share + p.1 * p.2) 0) + e)
  else none

/-- Source:
```rust
pub(crate) fn multi_party_aggregate_decryption_shares_and_decrypt(lwe_ct, shares, mod_op) {
    let mut sum_shares = R::Element::zero();
    shares.iter().for_each(|v| sum_shares = mod_op.add(&sum_shares, v));
    mod_op.add(&lwe_ct.as_ref()[0], &sum_shares)
}
```
Indexing `lwe_ct[0]` panics on an empty ciphertext, hence the `Option`. -/
def multi_party_aggregate_decryption_shares_and_decrypt (Q : ℕ)
    (lwe_ct : List (ZMod Q)) (shares : List (ZMod Q)) : Option (ZMod Q) :=
  match lwe_ct with
  | [] => none
  | b :: _ => some (b + shares.foldl (· + ·) 0)

/-! ### `FheUint8` encryption, decryption, share aggregation (src/shortint/mod.rs)

The Boolean layer (`Encryptor<bool, Vec<u64>>`, `Decryptor<bool, Vec<u64>>`,
`MultiPartyDecryptor<bool, Vec<u64>>` of `src/bool`) is abstract here: the
`FheUint8` code only calls it bit by bit. `C` is the type of Boolean
ciphertexts, `bool_enc`/`bool_dec` the Boolean encryptor/decryptor, and the
`u8` accumulator `out += 1 << index` is wrapping arithmetic mod `2^8`. -/

structure FheUint8 (C : Type) where
  data : List C

def encrypt_fheuint8 {C : Type} (bool_enc : Bool → C) (m : ℕ) : FheUint8 C :=
  ⟨(List.range 8).map (fun i => bool_enc (decide ((m >>> i) &&& 1 = 1)))⟩

def decrypt_fheuint8 {C : Type} (bool_dec : C → Bool) (c : FheUint8 C) : Option ℕ :=
  if c.data.length = 8 then
    some (c.data.enum.foldl
      (fun out p => if bool_dec p.2 then (out + (1 <<< p.1)) % 256 else out) 0)
  else none

/-- Modelled from the spec: the Boolean-level `aggregate_decryption_shares`
(`MultiPartyDecryptor<bool, Vec<u64>>` in `src/bool`, not part of this
snapshot). Per the spec's decryption protocol, it aggregates `d = Σ d_i`,
computes `b + d`, and rounds to the plaintext; `round_fn` is that final
rounding to a Boolean plaintext. -/
def bool_aggregate_decryption_shares (Q : ℕ) (round_fn : ZMod Q → Bool)
    (lwe_ct : List (ZMod Q)) (shares : List (ZMod Q)) : Bool :=
  round_fn (lwe_ct.getD 0 0 + shares.foldl (· + ·) 0)

/-- The impl `MultiPartyDecryptor<u8, FheUint8>::aggregate_decryption_shares`
(src/shortint/mod.rs): for each bit `i < 8` collect the `i`-th share of every
party, aggregate them at the Boolean level, and recompose the byte. -/
def aggregate_decryption_shares (Q : ℕ) (round_fn : ZMod Q → Bool)
    (c : FheUint8 (List (ZMod Q))) (shares : List (List (ZMod Q))) : ℕ :=
  (List.range 8).foldl
    (fun out i =>
      let bit_i_shares := shares.map (fun s => s.getD i 0)
      let bit_i := bool_aggregate_decryption_shares Q round_fn
        (c.data.getD i []) bit_i_shares
      if bit_i then (out + (1 <<< i)) % 256 else out)
    0

/-! ### 8-bit division (src/shortint)

`FheUint8::div_rem`, `Div` and `Rem` (src/shortint/mod.rs) all call
`arbitrary_bit_division_for_quotient_and_rem` and take the quotient,
respectively remainder, component. -/

/-- Modelled from the spec: `arbitrary_bit_division_for_quotient_and_rem`
(src/shortint/ops.rs, not part of this snapshot) — per the spec a "restoring
divider" Boolean circuit. One step per bit, most significant first: shift the
partial remainder left, bring down the next dividend bit, and when the
divisor fits, subtract it and set the quotient bit. -/
def restoring_div_loop (dividend divisor : ℕ) : ℕ → ℕ × ℕ → ℕ × ℕ
  | 0, qr => qr
  | k + 1, (q, r) =>
    let r' := 2 * r + (dividend >>> k) % 2
    if divisor ≤ r' then restoring_div_loop dividend divisor k (2 * q + 1, r' - divisor)
    else restoring_div_loop dividend divisor k (2 * q, r')

/-- The function `div_rem` at the plaintext level: the pair (quotient, remainder) of the
8-bit restoring divider. -/
def div_rem (dividend divisor : ℕ) : ℕ × ℕ :=
  restoring_div_loop dividend divisor 8 (0, 0)

end PhantomZone

namespace PhantomZone

/-! ## Helper lemmas -/

lemma lor_one_of_even {x : ℕ} (h : x % 2 = 0) : x ||| 1 = x + 1 := by
  obtain ⟨m, rfl⟩ : ∃ m, x = 2 * m := ⟨x / 2, by omega⟩
  have hb := Nat.lor_bit false m true 0
  simp [Nat.bit] at hb
  omega

lemma lor_one_of_odd {x : ℕ} (h : x % 2 = 1) : x ||| 1 = x := by
  obtain ⟨m, rfl⟩ : ∃ m, x = 2 * m + 1 := ⟨x / 2, by omega⟩
  have hb := Nat.lor_bit true m true 0
  simp [Nat.bit] at hb
  omega

/-! ## Claim theorems -/

/-- Claim C2: The odd mod switch from `Q_ks` to the bootstrap modulus `q`
returns `floor(v*q/Q_ks) ||| 1`: always odd, equal to the floor when the floor
is odd and to the floor plus one when it is even. -/
theorem mod_switch_odd_spec (v q_ks q : ℕ) :
    mod_switch_odd v q_ks q = (v * q / q_ks) ||| 1 ∧
    Odd (mod_switch_odd v q_ks q) ∧
    (Odd (v * q / q_ks) → mod_switch_odd v q_ks q = v * q / q_ks) ∧
    (Even (v * q / q_ks) → mod_switch_odd v q_ks q = v * q / q_ks + 1) := by
  set x := v * q / q_ks with hx
  have hdef : mod_switch_odd v q_ks q = x + ((x &&& 1) ^^^ 1) := rfl
  have hand : x &&& 1 = x % 2 := Nat.and_one_is_mod x
  rcases Nat.even_or_odd x with he | ho
  · have h2 : x % 2 = 0 := Nat.even_iff.mp he
    rw [hdef, hand, h2, lor_one_of_even h2]
    rw [Nat.zero_xor]
    refine ⟨rfl, Nat.odd_iff.mpr (by omega), ?_, fun _ => rfl⟩
    intro hodd
    exact absurd hodd (Nat.not_odd_iff_even.mpr he)
  · have h2 : x % 2 = 1 := Nat.odd_iff.mp ho
    rw [hdef, hand, h2, lor_one_of_odd h2]
    refine ⟨rfl, by simpa using ho, fun _ => by simp, ?_⟩
    intro heven
    exact absurd heven (Nat.not_even_iff_odd.mpr ho)

/-- Claim C8: PBS step 1 replaces every coordinate `v` of the input LWE
ciphertext by `round(v * Q_ks / Q)`: the map applies `mod_switch_round` to
every coordinate, the result is within `1/2` of the exact quotient, and it is
at least as close to the exact quotient as any other integer (nearest-integer
rounding). -/
theorem pbs_mod_switch_spec (lwe_q rlwe_q : ℕ) (lwe_in : List ℕ) :
    pbs_mod_switch lwe_q rlwe_q lwe_in
      = lwe_in.map (fun v : ℕ => round ((v * lwe_q : ℚ) / (rlwe_q : ℚ))) ∧
    (∀ v : ℕ,
      |(v * lwe_q : ℚ) / (rlwe_q : ℚ) - (mod_switch_round v lwe_q rlwe_q : ℚ)| ≤ 1 / 2 ∧
      ∀ z : ℤ,
        |(v * lwe_q : ℚ) / (rlwe_q : ℚ) - (mod_switch_round v lwe_q rlwe_q : ℚ)| ≤
          |(v * lwe_q : ℚ) / (rlwe_q : ℚ) - (z : ℚ)|) := by
  refine ⟨rfl, fun v => ⟨?_, fun z => ?_⟩⟩
  · simpa [mod_switch_round] using abs_sub_round ((v * lwe_q : ℚ) / (rlwe_q : ℚ))
  · simpa [mod_switch_round] using round_le ((v * lwe_q : ℚ) / (rlwe_q : ℚ)) z

lemma enum_map_range {α : Type _} (f : ℕ → α) (n : ℕ) :
    ((List.range n).map f).enum = (List.range n).map (fun i => (i, f i)) := by
  induction n with
  | zero => rfl
  | succ n ih =>
    rw [List.range_succ, List.map_append, List.enum_append, List.map_append, ih]
    simp

lemma bits_foldl (m n : ℕ) (hn : n ≤ 8) :
    (List.range n).foldl
      (fun out i => if (m >>> i) &&& 1 = 1 then (out + (1 <<< i)) % 256 else out) 0
      = m % 2 ^ n := by
  induction n with
  | zero => simp [Nat.mod_one]
  | succ n ih =>
    rw [List.range_succ, List.foldl_append, ih (by omega)]
    have hsr : (m >>> n) &&& 1 = m / 2 ^ n % 2 := by
      rw [Nat.shiftRight_eq_div_pow, Nat.and_one_is_mod]
    have hsl : (1 : ℕ) <<< n = 2 ^ n := by
      rw [Nat.shiftLeft_eq, one_mul]
    have hlt : m % 2 ^ (n + 1) < 256 := by
      calc m % 2 ^ (n + 1) < 2 ^ (n + 1) := Nat.mod_lt _ (by positivity)
      _ ≤ 2 ^ 8 := Nat.pow_le_pow_right (by omega) (by omega)
    have hms : m % 2 ^ (n + 1) = m % 2 ^ n + 2 ^ n * (m / 2 ^ n % 2) :=
      Nat.mod_pow_succ
    have hmlt : m % 2 ^ n < 2 ^ n := Nat.mod_lt _ (by positivity)
    simp only [List.foldl_cons, List.foldl_nil, hsr, hsl]
    by_cases hb : m / 2 ^ n % 2 = 1
    · rw [if_pos hb]
      rw [hb, mul_one] at hms
      omega
    · have hb0 : m / 2 ^ n % 2 = 0 := by omega
      rw [if_neg hb]
      rw [hb0, mul_zero, add_zero] at hms
      omega

/-- Claim C6: `FheUint8` encryption produces exactly 8 Boolean ciphertexts, the
`i`-th encrypting bit `(m >> i) & 1`; decryption recomposes `Σ 2^i·bit_i`; so
whenever the underlying Boolean encrypt/decrypt round-trips, so does the `u8`
round trip. -/
theorem fheuint8_roundtrip {C : Type} (bool_enc : Bool → C) (bool_dec : C → Bool)
    (hbit : ∀ b : Bool, bool_dec (bool_enc b) = b) (m : ℕ) (hm : m < 256) :
    (encrypt_fheuint8 bool_enc m).data.length = 8 ∧
    (∀ i, i < 8 → (encrypt_fheuint8 bool_enc m).data[i]?
        = some (bool_enc (decide ((m >>> i) &&& 1 = 1)))) ∧
    decrypt_fheuint8 bool_dec (encrypt_fheuint8 bool_enc m) = some m := by
  refine ⟨by simp [encrypt_fheuint8], fun i hi => ?_, ?_⟩
  · simp [encrypt_fheuint8, hi, Nat.testBit]
  · have hlen : (encrypt_fheuint8 bool_enc m).data.length = 8 := by
      simp [encrypt_fheuint8]
    rw [decrypt_fheuint8, if_pos hlen]
    have henum : (encrypt_fheuint8 bool_enc m).data.enum
        = (List.range 8).map
            (fun i => (i, bool_enc (decide ((m >>> i) &&& 1 = 1)))) :=
      enum_map_range (fun i => bool_enc (decide ((m >>> i) &&& 1 = 1))) 8
    rw [henum, List.foldl_map]
    simp only [hbit, decide_eq_true_eq]
    have := bits_foldl m 8 le_rfl
    rw [show (2 : ℕ) ^ 8 = 256 by norm_num, Nat.mod_eq_of_lt hm] at this
    rw [this]

/-- Witness for C6 at `m = 200` with the identity Boolean layer. -/
theorem fheuint8_roundtrip_witness :
    (∀ b : Bool, (id : Bool → Bool) ((id : Bool → Bool) b) = b) ∧ (200 : ℕ) < 256 ∧
    decrypt_fheuint8 (id : Bool → Bool)
      (encrypt_fheuint8 (id : Bool → Bool) 200) = some 200 :=
  ⟨fun b => rfl, by omega,
    (fheuint8_roundtrip (id : Bool → Bool) (id : Bool → Bool)
      (fun _ => rfl) 200 (by omega)).2.2⟩

lemma foldl_add_eq_sum (Q : ℕ) (l : List (ZMod Q)) (a : ZMod Q) :
    l.foldl (· + ·) a = a + l.sum := by
  induction l generalizing a with
  | nil => simp
  | cons x xs ih => simp [ih, add_assoc]

lemma foldl_mul_acc_eq_sum (Q : ℕ) (l : List (ZMod Q × ZMod Q)) (a : ZMod Q) :
    l.foldl (fun share p => share + p.1 * p.2) a
      = a + (l.map (fun p => p.1 * p.2)).sum := by
  induction l generalizing a with
  | nil => simp
  | cons x xs ih => simp [ih, add_assoc]

lemma zip_map_neg_prod (Q : ℕ) (s l : List (ZMod Q)) :
    (((s.map (fun x => -x)).zip l).map (fun p => p.1 * p.2)).sum
      = -(((l.zip s).map (fun p => p.1 * p.2)).sum) := by
  induction s generalizing l with
  | nil => simp
  | cons x xs ih =>
    cases l with
    | nil => simp
    | cons y ys => simp [ih, mul_comm, neg_add, add_comm]

/-- Claim C4: A decryption share is `-(Σ_j a_j·z_j) + e` with a single fresh
noise term (panicking unless the ciphertext has length `n+1`), and the
aggregator returns `b + Σ_i d_i`, all mod the LWE modulus. -/
theorem multi_party_decryption_spec (Q : ℕ) (lwe_ct s : List (ZMod Q)) (e : ZMod Q) :
    (lwe_ct.length = s.length + 1 →
      multi_party_decryption_share Q lwe_ct s e
        = some (-(((lwe_ct.drop 1).zip s).map (fun p => p.1 * p.2)).sum + e)) ∧
    (lwe_ct.length ≠ s.length + 1 →
      multi_party_decryption_share Q lwe_ct s e = none) ∧
    (∀ (b : ZMod Q) (rest shares : List (ZMod Q)),
      multi_party_aggregate_decryption_shares_and_decrypt Q (b :: rest) shares
        = some (b + shares.sum)) ∧
    multi_party_aggregate_decryption_shares_and_decrypt Q ([] : List (ZMod Q)) [] =
      none := by
  refine ⟨fun hlen => ?_, fun hlen => ?_, fun b rest shares => ?_, rfl⟩
  · rw [multi_party_decryption_share, if_pos hlen]
    congr 1
    rw [foldl_mul_acc_eq_sum, zero_add, zip_map_neg_prod]
  · rw [multi_party_decryption_share, if_neg hlen]
  · rw [multi_party_aggregate_decryption_shares_and_decrypt]
    rw [foldl_add_eq_sum, zero_add]

/-- Witness for C4 over `ZMod 17`. -/
theorem multi_party_decryption_spec_witness :
    ([5, 3, 7] : List (ZMod 17)).length = ([2, 11] : List (ZMod 17)).length + 1 ∧
    multi_party_decryption_share 17 [5, 3, 7] [2, 11] 1
      = some (-(((([5, 3, 7] : List (ZMod 17)).drop 1).zip [2, 11]).map
          (fun p => p.1 * p.2)).sum + 1) :=
  ⟨by decide, (multi_party_decryption_spec 17 [5, 3, 7] [2, 11] 1).1 (by decide)⟩

/-- Claim C7: Aggregation of decryption shares is order-independent, both at the
LWE level and at the `FheUint8` level. -/
theorem aggregation_order_independent (Q : ℕ) (round_fn : ZMod Q → Bool)
    (lwe_ct : List (ZMod Q)) (sh1 sh2 : List (ZMod Q)) (h : sh1.Perm sh2)
    (c : FheUint8 (List (ZMod Q))) (ps1 ps2 : List (List (ZMod Q)))
    (hp : ps1.Perm ps2) :
    multi_party_aggregate_decryption_shares_and_decrypt Q lwe_ct sh1
      = multi_party_aggregate_decryption_shares_and_decrypt Q lwe_ct sh2 ∧
    aggregate_decryption_shares Q round_fn c ps1
      = aggregate_decryption_shares Q round_fn c ps2 := by
  constructor
  · cases lwe_ct with
    | nil => rfl
    | cons b rest =>
      rw [multi_party_aggregate_decryption_shares_and_decrypt,
        multi_party_aggregate_decryption_shares_and_decrypt,
        foldl_add_eq_sum, foldl_add_eq_sum, h.sum_eq]
  · rw [aggregate_decryption_shares, aggregate_decryption_shares]
    apply List.foldl_ext
    intro out i _
    have hbit : bool_aggregate_decryption_shares Q round_fn (c.data.getD i [])
          (ps1.map (fun s => s.getD i 0))
        = bool_aggregate_decryption_shares Q round_fn (c.data.getD i [])
          (ps2.map (fun s => s.getD i 0)) := by
      rw [bool_aggregate_decryption_shares, bool_aggregate_decryption_shares,
        foldl_add_eq_sum, foldl_add_eq_sum, (hp.map (fun s => s.getD i 0)).sum_eq]
    simp only [hbit]

/-- Witness for C7: swapping two parties' shares over `ZMod 5`. -/
theorem aggregation_order_independent_witness :
    multi_party_aggregate_decryption_shares_and_decrypt 5 [1, 2] [1, 2]
      = multi_party_aggregate_decryption_shares_and_decrypt 5 [1, 2] [2, 1] ∧
    aggregate_decryption_shares 5 (fun z => decide (z = 1)) ⟨[[1], [2]]⟩ [[1], [2]]
      = aggregate_decryption_shares 5 (fun z => decide (z = 1)) ⟨[[1], [2]]⟩
          [[2], [1]] :=
  aggregation_order_independent 5 (fun z => decide (z = 1)) [1, 2] [1, 2] [2, 1]
    (by decide) ⟨[[1], [2]]⟩ [[1], [2]] [[2], [1]] (by decide)


lemma restoring_div_loop_zero (d : ℕ) : ∀ (k q r : ℕ),
    restoring_div_loop d 0 k (q, r) = (q * 2 ^ k + (2 ^ k - 1), r * 2 ^ k + d % 2 ^ k) := by
  intro k
  induction k with
  | zero => intro q r; simp [restoring_div_loop, Nat.mod_one]
  | succ k ih =>
    intro q r
    rw [restoring_div_loop]
    simp only [Nat.zero_le, if_pos, Nat.sub_zero]
    rw [ih]
    have hsr : (d >>> k) % 2 = d / 2 ^ k % 2 := by
      rw [Nat.shiftRight_eq_div_pow]
    have hms : d % 2 ^ (k + 1) = d % 2 ^ k + 2 ^ k * (d / 2 ^ k % 2) :=
      Nat.mod_pow_succ
    have hP : 0 < 2 ^ k := by positivity
    have hb : d / 2 ^ k % 2 = 0 ∨ d / 2 ^ k % 2 = 1 := by omega
    have e1 : (2 * q + 1) * 2 ^ k = 2 * (q * 2 ^ k) + 2 ^ k := by ring
    have e2 : q * 2 ^ (k + 1) = 2 * (q * 2 ^ k) := by ring
    have e3 : (2 : ℕ) ^ (k + 1) = 2 * 2 ^ k := by ring
    rcases hb with hb | hb
    · rw [hb] at hms
      have e4 : (2 * r + d / 2 ^ k % 2) * 2 ^ k = 2 * (r * 2 ^ k) := by
        rw [hb]; ring
      have e5 : r * 2 ^ (k + 1) = 2 * (r * 2 ^ k) := by ring
      rw [hsr]
      refine Prod.ext ?_ ?_ <;> simp only <;> omega
    · rw [hb] at hms
      have e4 : (2 * r + d / 2 ^ k % 2) * 2 ^ k = 2 * (r * 2 ^ k) + 2 ^ k := by
        rw [hb]; ring
      have e5 : r * 2 ^ (k + 1) = 2 * (r * 2 ^ k) := by ring
      rw [hsr]
      refine Prod.ext ?_ ?_ <;> simp only <;> omega

/-- Claim C5: Division of any encrypted 8-bit dividend `i` by an encrypted 0
produces quotient 255 and remainder `i` (plaintext level; the restoring
divider is modelled from the spec, `src/shortint/ops.rs` not being part of
the snapshot). `Div`/`Rem` are the two components of `div_rem`. -/
theorem div_rem_by_zero (i : ℕ) (hi : i < 256) :
    div_rem i 0 = (255, i) ∧ (div_rem i 0).1 = 255 ∧ (div_rem i 0).2 = i := by
  have h := restoring_div_loop_zero i 8 0 0
  have : div_rem i 0 = (255, i % 256) := by
    rw [div_rem, h]
    norm_num
  rw [Nat.mod_eq_of_lt hi] at this
  exact ⟨this, by rw [this], by rw [this]⟩

/-- Witness for C5 at dividend 200. -/
theorem div_rem_by_zero_witness : (200 : ℕ) < 256 ∧ div_rem 200 0 = (255, 200) :=
  ⟨by omega, (div_rem_by_zero 200 (by omega)).1⟩


lemma reduce_auto_k_modeq (ring_size : ℕ) (k : ℤ) (hr : 0 < ring_size) :
    ((reduce_auto_k ring_size k : ℕ) : ℤ) ≡ k [ZMOD (2 * (ring_size : ℤ))] ∨
    (0 : ℤ) ≤ k := by
  by_cases hk : k < 0
  · left
    rw [reduce_auto_k, if_pos hk]
    have h2r : 0 < 2 * ring_size := by omega
    have hc : (-k).toNat % (2 * ring_size) < 2 * ring_size := Nat.mod_lt _ h2r
    have hknn : (0 : ℤ) ≤ -k := by omega
    have hcast : (((2 * ring_size - ((-k).toNat % (2 * ring_size))) : ℕ) : ℤ)
        = 2 * (ring_size : ℤ) - (-k) % (2 * (ring_size : ℤ)) := by
      rw [Nat.cast_sub hc.le]
      push_cast [Int.toNat_of_nonneg hknn]
      ring
    rw [hcast]
    have hdiv := Int.ediv_add_emod (-k) (2 * (ring_size : ℤ))
    refine Int.modEq_iff_dvd.mpr ⟨-(1 + (-k) / (2 * (ring_size : ℤ))), ?_⟩
    linarith
  · right
    omega

lemma auto_map_exponent_bounds (ring_size : ℕ) (k : ℤ) (i : ℕ) (hr : 0 < ring_size) :
    0 ≤ auto_map_exponent ring_size k i ∧
    auto_map_exponent ring_size k i < 2 * (ring_size : ℤ) := by
  have h2r : (0 : ℤ) < 2 * (ring_size : ℤ) := by positivity
  exact ⟨Int.emod_nonneg _ (by omega), Int.emod_lt_of_pos _ h2r⟩

/-- Claim C10: `generate_auto_map` panics exactly when `k` is even; for odd `k`
(of either sign) and every `i < ring_size` it returns
`to_index = ((i*k) mod 2N) mod N` and a sign bit that is `false` exactly when
`(i*k) mod 2N ≥ N`, so that `X^{i·k} = ±X^{to_index}` in `Z[X]/(X^N+1)`:
`i·k ≡ to_index (mod 2N)` when the bit is set and
`i·k ≡ to_index + N (mod 2N)` when it is not. Negative `k` is first reduced
to `2N - (|k| mod 2N)`. -/
theorem generate_auto_map_spec (ring_size : ℕ) (k : ℤ) (hr : 0 < ring_size) :
    (k % 2 ≠ 1 → generate_auto_map ring_size k = none) ∧
    (k % 2 = 1 →
      ∃ idx sgn, generate_auto_map ring_size k = some (idx, sgn) ∧
        idx.length = ring_size ∧ sgn.length = ring_size ∧
        ∀ i, i < ring_size →
          idx[i]? = some ((auto_map_exponent ring_size k i).toNat % ring_size) ∧
          sgn[i]? = some (decide (auto_map_exponent ring_size k i < (ring_size : ℤ))) ∧
          (auto_map_exponent ring_size k i < (ring_size : ℤ) →
            (i : ℤ) * k ≡ (((auto_map_exponent ring_size k i).toNat % ring_size : ℕ) : ℤ)
              [ZMOD (2 * (ring_size : ℤ))]) ∧
          ((ring_size : ℤ) ≤ auto_map_exponent ring_size k i →
            (i : ℤ) * k ≡ (((auto_map_exponent ring_size k i).toNat % ring_size
                + ring_size : ℕ) : ℤ)
              [ZMOD (2 * (ring_size : ℤ))])) := by
  constructor
  · intro hk
    rw [generate_auto_map, if_neg hk]
  · intro hk
    rw [generate_auto_map, if_pos hk]
    have hkmod : ((reduce_auto_k ring_size k : ℕ) : ℤ) ≡ k [ZMOD (2 * (ring_size : ℤ))] := by
      rcases reduce_auto_k_modeq ring_size k hr with h | h
      · exact h
      · rw [reduce_auto_k, if_neg (by omega), Int.toNat_of_nonneg h]
    set kred := reduce_auto_k ring_size k with hkredset
    refine ⟨((List.range ring_size).map (auto_map_entry ring_size kred)).unzip.1,
      ((List.range ring_size).map (auto_map_entry ring_size kred)).unzip.2,
      by rw [Prod.mk.eta], by simp, by simp, fun i hi => ?_⟩
    have h2r : 0 < 2 * ring_size := by omega
    have hto : (((i * kred) % (2 * ring_size) : ℕ) : ℤ) = auto_map_exponent ring_size k i := by
      have hcong : (((i * kred : ℕ)) : ℤ) ≡ (i : ℤ) * k [ZMOD (2 * (ring_size : ℤ))] := by
        have hmul := Int.ModEq.mul_left (i : ℤ) hkmod
        calc (((i * kred : ℕ)) : ℤ) = (i : ℤ) * (kred : ℤ) := by push_cast; ring
        _ ≡ (i : ℤ) * k [ZMOD (2 * (ring_size : ℤ))] := hmul
      have hcast : (((i * kred) % (2 * ring_size) : ℕ) : ℤ)
          = (((i * kred : ℕ)) : ℤ) % (2 * (ring_size : ℤ)) := by
        push_cast
        ring_nf
      rw [hcast]
      exact hcong
    have hexp := auto_map_exponent_bounds ring_size k i hr
    have hidx : (((List.range ring_size).map (auto_map_entry ring_size kred)).unzip.1)[i]?
        = some ((auto_map_entry ring_size kred i).1) := by
      simp [List.unzip_fst, List.getElem?_range hi]
    have hsgn : (((List.range ring_size).map (auto_map_entry ring_size kred)).unzip.2)[i]?
        = some ((auto_map_entry ring_size kred i).2) := by
      simp [List.unzip_snd, List.getElem?_range hi]
    have hmodid : (i : ℤ) * k ≡ auto_map_exponent ring_size k i
        [ZMOD (2 * (ring_size : ℤ))] := by
      rw [auto_map_exponent, Int.ModEq]
      exact (Int.emod_emod_of_dvd _ dvd_rfl).symm
    have hlt2 : (i * kred) % (2 * ring_size) < 2 * ring_size := Nat.mod_lt _ h2r
    have htoNat : (auto_map_exponent ring_size k i).toNat
        = (i * kred) % (2 * ring_size) := by
      omega
    set to_i := (i * kred) % (2 * ring_size) with hto_def
    by_cases hcase : ring_size ≤ to_i
    · have hfival : auto_map_entry ring_size kred i = (to_i - ring_size, false) := by
        rw [auto_map_entry, ← hto_def]
        simp only [if_pos hcase]
      have hmodring : to_i - ring_size
          = (auto_map_exponent ring_size k i).toNat % ring_size := by
        rw [htoNat, Nat.mod_eq_sub_mod hcase, Nat.mod_eq_of_lt (by omega)]
      have hcmp : ¬ (auto_map_exponent ring_size k i < (ring_size : ℤ)) := by
        omega
      refine ⟨?_, ?_, fun hlt => absurd hlt hcmp, fun _ => ?_⟩
      · rw [hidx, hfival, hmodring]
      · rw [hsgn, hfival]
        simp [hcmp]
      · have hcastval : (((auto_map_exponent ring_size k i).toNat % ring_size
            + ring_size : ℕ) : ℤ) = auto_map_exponent ring_size k i := by
          rw [← hmodring]
          push_cast [Nat.cast_sub hcase]
          omega
        rw [hcastval]
        exact hmodid
    · have hfival : auto_map_entry ring_size kred i = (to_i, true) := by
        rw [auto_map_entry, ← hto_def]
        simp only [if_neg hcase]
      have hmodring : to_i = (auto_map_exponent ring_size k i).toNat % ring_size := by
        rw [htoNat, Nat.mod_eq_of_lt (by omega)]
      have hcmp : auto_map_exponent ring_size k i < (ring_size : ℤ) := by
        omega
      refine ⟨?_, ?_, fun _ => ?_, fun hge => absurd hcmp (not_lt.mpr hge)⟩
      · rw [hidx, hfival, hmodring]
      · rw [hsgn, hfival]
        simp [hcmp]
      · have hcastval : ((((auto_map_exponent ring_size k i).toNat % ring_size : ℕ)) : ℤ)
            = auto_map_exponent ring_size k i := by
          rw [← hmodring]
          omega
        rw [hcastval]
        exact hmodid

/-- Witness for C10: `ring_size = 4` with the odd `k = -3` (returns a map) and
the even `k = -4` (panics). -/
theorem generate_auto_map_spec_witness :
    (0 : ℕ) < 4 ∧ ((-3 : ℤ) % 2 = 1) ∧ generate_auto_map 4 (-3) ≠ none ∧
    ((-4 : ℤ) % 2 ≠ 1) ∧ generate_auto_map 4 (-4) = none :=
  ⟨by omega, by decide, by
    obtain ⟨idx, sgn, hsome, -⟩ := (generate_auto_map_spec 4 (-3) (by omega)).2 (by decide)
    rw [hsome]
    simp,
    by decide, (generate_auto_map_spec 4 (-4) (by omega)).1 (by decide)⟩


lemma getD_set_ite {α : Type _} (l : List α) (p j : ℕ) (a d : α) :
    (l.set p a).getD j d = if p = j ∧ p < l.length then a else l.getD j d := by
  rw [List.getD_eq_getElem?_getD, List.getD_eq_getElem?_getD, List.getElem?_set]
  by_cases h1 : p = j
  · subst h1
    by_cases h2 : p < l.length
    · simp [h2]
    · have hnone : l[p]? = none := List.getElem?_eq_none (by omega)
      simp [h2, hnone]
  · simp [h1]

lemma foldl_set_length {α : Type _} (f : ℕ → List α → List α)
    (hf : ∀ i acc, (f i acc).length = acc.length) (l : List ℕ) (init : List α) :
    (l.foldl (fun acc i => f i acc) init).length = init.length := by
  induction l generalizing init with
  | nil => rfl
  | cons x xs ih => rw [List.foldl_cons, ih, hf]

lemma foldl_set_shift_getD {α : Type _} (d : α) (val : ℕ → α) :
    ∀ (n s : ℕ) (init : List α) (j : ℕ),
      ((List.range' s n).foldl (fun acc i => acc.set (1 + i) (val i)) init).getD j d
        = if 1 + s ≤ j ∧ j < 1 + s + n ∧ j < init.length then val (j - 1)
          else init.getD j d := by
  intro n
  induction n with
  | zero =>
    intro s init j
    simp only [List.range', List.foldl_nil]
    rw [if_neg (by omega)]
  | succ n ih =>
    intro s init j
    rw [List.range'_succ, List.foldl_cons, ih]
    rw [List.length_set, getD_set_ite]
    by_cases hin : 1 + (s + 1) ≤ j ∧ j < 1 + (s + 1) + n ∧ j < init.length
    · rw [if_pos hin, if_pos (by omega)]
    · rw [if_neg hin]
      by_cases hset : 1 + s = j ∧ 1 + s < init.length
      · rw [if_pos hset, if_pos (by omega)]
        congr 1
        omega
      · rw [if_neg hset, if_neg (by omega)]

/-- Claim C9: `sample_extract(lwe_out, rlwe_in, mod_op, index)` panics unless
`lwe_out` has length `N+1`; it sets `lwe_out[0]` to the part-b coefficient at
`index`, and for the a-part `lwe_out[1+i]` is the part-a coefficient at
`index - i` for `0 ≤ i ≤ index` and the modular negation of the part-a
coefficient at `N + index - i` for `index < i < N`. (`rlwe_in` is read through
a shared reference and is unchanged by construction of the embedding.) -/
theorem sample_extract_spec (Q : ℕ) (lwe_out rlwe_a rlwe_b : List (ZMod Q))
    (index : ℕ) (hlen : lwe_out.length = rlwe_a.length + 1)
    (hidx : index < rlwe_a.length) :
    (∃ out, sample_extract Q lwe_out rlwe_a rlwe_b index = some out ∧
      out.length = rlwe_a.length + 1 ∧
      out.getD 0 0 = rlwe_b.getD index 0 ∧
      (∀ i, i ≤ index → out.getD (1 + i) 0 = rlwe_a.getD (index - i) 0) ∧
      (∀ i, index < i → i < rlwe_a.length →
        out.getD (1 + i) 0 = -(rlwe_a.getD (rlwe_a.length + index - i) 0))) ∧
    (∀ lo : List (ZMod Q), lo.length ≠ rlwe_a.length + 1 →
      sample_extract Q lo rlwe_a rlwe_b index = none) := by
  constructor
  · have hcond : rlwe_a.length + 1 = lwe_out.length := hlen.symm
    set step1 := (List.range' 0 (index + 1)).foldl
      (fun acc i => acc.set (1 + i) (rlwe_a.getD (index - i) 0)) lwe_out with hs1
    set step2 := (List.range' (index + 1) (rlwe_a.length - (index + 1))).foldl
      (fun acc i => acc.set (1 + i) (-(rlwe_a.getD (rlwe_a.length + index - i) 0)))
      step1 with hs2
    have hlen1 : step1.length = lwe_out.length := by
      rw [hs1]
      exact foldl_set_length
        (fun i acc => acc.set (1 + i) (rlwe_a.getD (index - i) 0))
        (fun i acc => List.length_set acc _ _) _ _
    have hlen2 : step2.length = lwe_out.length := by
      rw [hs2]
      exact (foldl_set_length
        (fun i acc => acc.set (1 + i) (-(rlwe_a.getD (rlwe_a.length + index - i) 0)))
        (fun i acc => List.length_set acc _ _) _ _).trans hlen1
    refine ⟨step2.set 0 (rlwe_b.getD index 0), ?_, ?_, ?_, ?_, ?_⟩
    · simp only [sample_extract]
      rw [if_pos hcond, ← hs1, ← hs2]
    · rw [List.length_set, hlen2, hlen]
    · rw [getD_set_ite, if_pos ⟨rfl, by omega⟩]
    · intro i hi
      rw [getD_set_ite, if_neg (by omega), hs2, foldl_set_shift_getD,
        if_neg (by omega), hs1, foldl_set_shift_getD,
        if_pos ⟨by omega, by omega, by omega⟩, Nat.add_sub_cancel_left]
    · intro i hi1 hi2
      rw [getD_set_ite, if_neg (by omega), hs2, foldl_set_shift_getD,
        if_pos ⟨by omega, by omega, by omega⟩, Nat.add_sub_cancel_left]
  · intro lo hlo
    simp only [sample_extract]
    rw [if_neg (by omega)]


/-- Witness for C9 over `ZMod 7`: ring size 3, extraction index 1. -/
theorem sample_extract_spec_witness :
    ∃ out, sample_extract 7 [0, 0, 0, 0] [1, 2, 3] [4, 5, 6] 1 = some out ∧
      out.length = 4 ∧ out.getD 0 0 = 5 := by
  obtain ⟨⟨out, hsome, hl, h0, -, -⟩, -⟩ :=
    sample_extract_spec 7 [0, 0, 0, 0] [1, 2, 3] [4, 5, 6] 1 (by decide) (by decide)
  exact ⟨out, hsome, hl, h0⟩


lemma div_mod_decompose (m c r : ℕ) (hm : 0 < m) (hr : r < m) :
    (m * c + r) / m = c ∧ (m * c + r) % m = r := by
  constructor
  · rw [Nat.mul_add_div hm, Nat.div_eq_of_lt hr, add_zero]
  · rw [Nat.mul_add_mod, Nat.mod_eq_of_lt hr]

lemma monomial_src_lt (exp ring j : ℕ) (hexp : exp ≤ ring) (hj : j < ring) :
    monomial_src exp ring j < ring := by
  rw [monomial_src]
  split_ifs <;> omega

lemma monomial_mul_step_eq_set (Q : ℕ) (p_in : List (ZMod Q)) (exp : ℕ) (sign : Bool)
    (ring : ℕ) (init : List (ZMod Q)) (s : ℕ) :
    monomial_mul_step Q p_in exp sign ring init s
      = init.set (if ring ≤ s + exp then s + exp - ring else s + exp)
          (monomial_val Q p_in exp sign ring s) := by
  rw [monomial_mul_step, monomial_val]
  by_cases hw : ring ≤ s + exp
  · simp only [if_pos hw, if_neg (by omega : ¬ s + exp < ring)]
    cases sign <;> simp
  · simp only [if_neg hw, if_pos (by omega : s + exp < ring)]
    cases sign <;> simp

lemma monomial_pos_eq_iff (exp ring j s : ℕ) (hexp : exp ≤ ring) (hj : j < ring)
    (hs : s < ring) :
    (if ring ≤ s + exp then s + exp - ring else s + exp) = j ↔
      monomial_src exp ring j = s := by
  rw [monomial_src]
  split_ifs <;> omega

lemma monomial_mul_foldl_getD (Q : ℕ) (p_in : List (ZMod Q)) (exp : ℕ) (sign : Bool)
    (ring : ℕ) (hexp : exp ≤ ring) :
    ∀ (n s : ℕ), s + n ≤ ring →
      ∀ (init : List (ZMod Q)) (j : ℕ), j < ring →
      ((List.range' s n).foldl (monomial_mul_step Q p_in exp sign ring) init).getD j 0
        = if s ≤ monomial_src exp ring j ∧ monomial_src exp ring j < s + n ∧
              j < init.length
          then monomial_val Q p_in exp sign ring (monomial_src exp ring j)
          else init.getD j 0 := by
  intro n
  induction n with
  | zero =>
    intro s hs init j hj
    simp only [List.range', List.foldl_nil]
    rw [if_neg (by omega)]
  | succ n ih =>
    intro s hs init j hj
    rw [List.range'_succ, List.foldl_cons, ih (s + 1) (by omega) _ j hj]
    rw [monomial_mul_step_eq_set, List.length_set, getD_set_ite]
    have hiff := monomial_pos_eq_iff exp ring j s hexp hj (by omega)
    by_cases hin : s + 1 ≤ monomial_src exp ring j ∧
        monomial_src exp ring j < s + 1 + n ∧ j < init.length
    · rw [if_pos hin, if_pos (by omega)]
    · rw [if_neg hin]
      by_cases hset : (if ring ≤ s + exp then s + exp - ring else s + exp) = j ∧
          (if ring ≤ s + exp then s + exp - ring else s + exp) < init.length
      · have hts : monomial_src exp ring j = s := hiff.mp hset.1
        have hjlen : j < init.length := hset.1 ▸ hset.2
        rw [if_pos hset, if_pos (by omega), hts]
      · rw [if_neg hset]
        rw [if_neg ?_]
        rintro ⟨ha, hb, hc⟩
        have hts : monomial_src exp ring j = s := by omega
        exact hset ⟨hiff.mpr hts, by rw [hiff.mpr hts]; exact hc⟩

lemma monomial_mul_getD (Q : ℕ) (p_in init : List (ZMod Q)) (exp : ℕ) (sign : Bool)
    (ring : ℕ) (hexp : exp ≤ ring) (hinit : init.length = ring) (j : ℕ)
    (hj : j < ring) :
    (monomial_mul Q p_in exp sign ring init).getD j 0
      = monomial_val Q p_in exp sign ring (monomial_src exp ring j) := by
  rw [monomial_mul, List.range_eq_range',
    monomial_mul_foldl_getD Q p_in exp sign ring hexp ring 0 (by omega) init j hj]
  have hsrc := monomial_src_lt exp ring j hexp hj
  rw [if_pos ⟨by omega, by omega, by omega⟩]

lemma foldl_set_mul_getD {α : Type _} (d : α) (val : ℕ → α) (ef : ℕ) (hef : 0 < ef) :
    ∀ (n s : ℕ) (init : List α) (t : ℕ),
      ((List.range' s n).foldl (fun acc i => acc.set (ef * i) (val i)) init).getD
          (ef * t) d
        = if s ≤ t ∧ t < s + n ∧ ef * t < init.length then val t
          else init.getD (ef * t) d := by
  intro n
  induction n with
  | zero =>
    intro s init t
    simp only [List.range', List.foldl_nil]
    rw [if_neg (by omega)]
  | succ n ih =>
    intro s init t
    rw [List.range'_succ, List.foldl_cons, ih (s + 1) _ t]
    rw [List.length_set, getD_set_ite]
    by_cases hin : s + 1 ≤ t ∧ t < s + 1 + n ∧ ef * t < init.length
    · rw [if_pos hin, if_pos (by omega)]
    · rw [if_neg hin]
      by_cases hset : ef * s = ef * t ∧ ef * s < init.length
      · have hts : s = t := Nat.eq_of_mul_eq_mul_left hef hset.1
        subst hts
        rw [if_pos hset, if_pos ⟨le_rfl, by omega, hset.1 ▸ hset.2⟩]
      · rw [if_neg hset]
        rw [if_neg ?_]
        rintro ⟨ha, hb, hc⟩
        have hts : s = t := by omega
        subst hts
        exact hset ⟨rfl, hc⟩

lemma monomial_adjusted_eq_negacyclic (Q : ℕ) (t : List (ZMod Q)) (m e j : ℕ)
    (hm : 0 < m) (he : e < 2 * m) (hj : j < m) :
    monomial_val Q t (if m < e then e - m else e) (if m < e then false else true) m
        (monomial_src (if m < e then e - m else e) m j)
      = negacyclic_monomial_mul_coeff Q m e t j := by
  rw [negacyclic_monomial_mul_coeff, monomial_src, monomial_val]
  by_cases hcase : m < e
  · simp only [if_pos hcase]
    by_cases hcase2 : e - m ≤ j
    · -- x = j + 2m - e = m * 1 + (j + m - e)
      have hx : j + 2 * m - e = m * 1 + (j + m - e) := by omega
      obtain ⟨hdiv, hmod⟩ := div_mod_decompose m 1 (j + m - e) hm (by omega)
      rw [hx, hdiv, hmod]
      rw [if_neg (by omega : ¬ (1 % 2 = 0))]
      rw [if_pos hcase2, if_pos (by omega : j - (e - m) + (e - m) < m)]
      rw [if_neg (by simp : ¬ (false = true))]
      congr 2
      omega
    · -- x = j + 2m - e = m * 0 + (j + 2m - e)
      have hx : j + 2 * m - e = m * 0 + (j + 2 * m - e) := by omega
      obtain ⟨hdiv, hmod⟩ := div_mod_decompose m 0 (j + 2 * m - e) hm (by omega)
      rw [hx, hdiv, hmod]
      rw [if_pos (by omega : 0 % 2 = 0)]
      rw [if_neg hcase2, if_neg (by omega : ¬ (j + m - (e - m) + (e - m) < m))]
      rw [if_neg (by simp : ¬ (false = true))]
      congr 1
      omega
  · simp only [if_neg hcase]
    by_cases hcase2 : e ≤ j
    · -- x = j + 2m - e = m * 2 + (j - e)
      have hx : j + 2 * m - e = m * 2 + (j - e) := by omega
      obtain ⟨hdiv, hmod⟩ := div_mod_decompose m 2 (j - e) hm (by omega)
      rw [hx, hdiv, hmod]
      rw [if_pos (by omega : 2 % 2 = 0)]
      rw [if_pos hcase2, if_pos (by omega : j - e + e < m)]
      simp
    · -- x = j + 2m - e = m * 1 + (j + m - e)
      have hx : j + 2 * m - e = m * 1 + (j + m - e) := by omega
      obtain ⟨hdiv, hmod⟩ := div_mod_decompose m 1 (j + m - e) hm (by omega)
      rw [hx, hdiv, hmod]
      rw [if_neg (by omega : ¬ (1 % 2 = 0))]
      rw [if_neg hcase2, if_neg (by omega : ¬ (j + m - e + e < m))]
      simp

/-- Claim C3: PBS step 4 multiplies the test polynomial by `X^{(g·b_mod) mod q}`
in `Z[X]/(X^{q/2}+1)`: the effective shift is reduced by `q/2` with a global
sign flip when it exceeds `q/2`, `monomial_mul` negates every coefficient that
wraps past degree `q/2`, and the resulting length-`q/2` polynomial is written
to indices `(2N/q)·i` of the part-b row (identity embedding when `2N/q = 1`).
Here `q = 2*m` and `N = ef*m` with `ef` the embedding factor. -/
theorem pbs_test_vec_row_spec (Q : ℕ) (test_vec : List (ZMod Q)) (g b_mod m ef : ℕ)
    (hm : 0 < m) (hef : 0 < ef) (htv : test_vec.length = m) :
    (∀ j, j < m →
      (pbs_test_vec_row Q test_vec g b_mod (2 * m) (ef * m) ef).getD (ef * j) 0
        = negacyclic_monomial_mul_coeff Q m ((g * b_mod) % (2 * m)) test_vec j) ∧
    (∀ (init : List (ZMod Q)) (exp : ℕ) (sign : Bool) (j : ℕ), exp ≤ m →
      init.length = m → j < m →
      (monomial_mul Q test_vec exp sign m init).getD j 0
        = monomial_val Q test_vec exp sign m (monomial_src exp m j)) := by
  constructor
  · intro j hj
    have he : (g * b_mod) % (2 * m) < 2 * m := Nat.mod_lt _ (by omega)
    have hq2 : (2 * m) >>> 1 = m := by
      rw [Nat.shiftRight_eq_div_pow]
      omega
    have hexp : (if m < (g * b_mod) % (2 * m) then (g * b_mod) % (2 * m) - m
        else (g * b_mod) % (2 * m)) ≤ m := by
      split_ifs <;> omega
    rw [pbs_test_vec_row]
    simp only [hq2]
    by_cases hef1 : ef = 1
    · subst hef1
      rw [if_pos rfl]
      rw [one_mul, one_mul]
      rw [monomial_mul_getD Q test_vec _ _ _ m hexp (by simp) j hj]
      exact monomial_adjusted_eq_negacyclic Q test_vec m _ j hm he hj
    · rw [if_neg hef1]
      rw [List.range_eq_range',
        foldl_set_mul_getD (0 : ZMod Q) _ ef hef m 0 (List.replicate (ef * m) 0) j]
      rw [if_pos ⟨by omega, by omega, by
        rw [List.length_replicate]
        exact mul_lt_mul_of_pos_left hj hef⟩]
      rw [monomial_mul_getD Q test_vec _ _ _ m hexp (by simp) j hj]
      exact monomial_adjusted_eq_negacyclic Q test_vec m _ j hm he hj
  · intro init exp sign j hexp hinit hj
    exact monomial_mul_getD Q test_vec init exp sign m hexp hinit j hj

/-- Witness for C3 over `ZMod 5`: `m = 2` (`q = 4`), embedding factor 2
(`N = 4`), `g = 3`, `b_mod = 1`. -/
theorem pbs_test_vec_row_spec_witness :
    (0 : ℕ) < 2 ∧ (0 : ℕ) < 2 ∧ ([1, 2] : List (ZMod 5)).length = 2 ∧
    (pbs_test_vec_row 5 [1, 2] 3 1 4 4 2).getD (2 * 1) 0
      = negacyclic_monomial_mul_coeff 5 2 ((3 * 1) % 4) [1, 2] 1 :=
  ⟨by omega, by omega, by decide,
    (pbs_test_vec_row_spec 5 [1, 2] 3 1 2 2 (by omega) (by omega) (by decide)).1
      1 (by omega)⟩


lemma spec_fold_aux (gk : List (List ℕ)) (w off : ℕ) :
    ∀ (n : ℕ) (tr : List BREvent) (v : ℕ),
      (((List.range' 1 n).reverse).foldl
        (fun st k =>
          let tr' := st.1 ++ (gk.getD (off + k) []).map BREvent.extProd
          let v' := st.2 + 1
          if gk.getD (off + (k - 1)) [] ≠ [] ∨ v' = w ∨ k = 1
          then (tr' ++ [BREvent.auto v'], 0) else (tr', v')) (tr, v)).1
      = tr ++ br_half gk w off n v := by
  intro n
  induction n with
  | zero =>
    intro tr v
    simp [br_half]
  | succ n ih =>
    intro tr v
    rw [List.range'_1_concat, List.reverse_append]
    simp only [List.reverse_singleton, List.singleton_append, List.foldl_cons]
    simp only [Nat.add_comm 1 n, Nat.add_sub_cancel]
    by_cases hcond : gk.getD (off + n) [] ≠ [] ∨ v + 1 = w ∨ n + 1 = 1
    · rw [if_pos hcond, ih]
      rw [br_half]
      rw [if_pos hcond]
      simp [List.append_assoc]
    · rw [if_neg hcond, ih]
      rw [br_half]
      rw [if_neg hcond]
      simp [List.append_assoc]

/-- Claim C1: The blind-rotation inner loop follows exactly the LMKC+ schedule
stated by the spec: buckets `q/4+k` for `k = q/4-1 .. 1` (negative half), the
negative `k = 0` bucket followed by the final `k = 0` automorphism, buckets
`k = q/4-1 .. 1` (positive half), then the positive `k = 0` bucket; within
each half an external product is emitted for every secret index of the
current bucket, and an automorphism for the accumulated shift (resetting the
window counter) exactly when the next bucket is non-empty, the window counter
reaches `w`, or `k = 1`. The trace is terminal: nothing follows the positive
`k = 0` bucket, and all `q/2` buckets have been visited. -/
theorem blind_rotation_schedule (w q : ℕ) (gk_to_si : List (List ℕ)) :
    blind_rotation_trace w q gk_to_si
      = spec_blind_rotation_trace w q (fun k => gk_to_si.getD k []) := by
  have hq4 : q >>> 2 = q / 4 := by
    rw [Nat.shiftRight_eq_div_pow]
  have hneg : (spec_half w (fun k => gk_to_si.getD (q / 4 + k) [])
        ((List.range' 1 (q / 4 - 1)).reverse)).1
      = br_half gk_to_si w (q / 4) (q / 4 - 1) 0 := by
    rw [spec_half]
    have haux := spec_fold_aux gk_to_si w (q / 4) (q / 4 - 1) [] 0
    simpa using haux
  have hpos : (spec_half w (fun k => gk_to_si.getD k [])
        ((List.range' 1 (q / 4 - 1)).reverse)).1
      = br_half gk_to_si w 0 (q / 4 - 1) 0 := by
    rw [spec_half]
    have haux := spec_fold_aux gk_to_si w 0 (q / 4 - 1) [] 0
    simp only [Nat.zero_add] at haux
    simpa using haux
  rw [blind_rotation_trace, spec_blind_rotation_trace]
  simp only [hq4, hneg, hpos]

end PhantomZone
